import Mathlib

/-!
Verification development for drow's `src/elfio.c`, the ELF patching core
(locator `find_exe_seg_last_section`, relocator `expand_section`, exporter
`export_elf_file`).

Modeling conventions:
* The ELF image is a state record: typed views of the top-level header, the
  section header table and the program header table, plus the raw byte buffer
  (`data`) and its length (`size`).  In the C code the header tables overlay
  the byte buffer; here the typed tables and the raw bytes are parallel
  components of the same state, and the in-place header mutations of
  `expand_section` are reflected in the typed components.
* 64-bit header fields are modeled as natural numbers; every 64-bit C
  operation that can wrap carries an explicit `% 2^64`: the section end sum
  `sh_addr + sh_size` in the locator and the `p_offset` / `p_filesz` /
  `p_memsz` / `e_shoff` / `e_phoff` additions in the relocator.  (The base
  computation `*sinfo->offset + size` adds two 32-bit reads, so its 64-bit
  sum is below `2^33` and cannot wrap.)  Every place where elfio.c narrows
  to 32 bits is modeled with an explicit `% 2^32`: the `uint32_t
  segment_end` in the locator (wrapping then truncating equals truncating
  the exact sum, since `2^32` divides `2^64`), the `uint32_t newoff`
  temporary in the section-offset loop, and the `uint32_t *` views
  `sinfo->offset` / `sinfo->size` into the little-endian 64-bit
  `sh_offset` / `sh_size` fields.
* `getpagesize()` is fixed at 4096.
* File I/O: `write` calls are modeled as appending bytes to the output list
  (short writes and `malloc` failure are environment faults, not modeled);
  the `size_t` subtractions in `export_elf_file` keep their modulo-2^64
  semantics.
* The locator's `strncpy` of the section name is display-only and omitted;
  the descriptor binds the chosen section by its table index, which is what
  the `uint32_t *` field pointers do in C.
-/

/-- Fixed page size: `getpagesize()` on the target platform. -/
def pagesize : Nat := 4096

/-- ELF program-header flag bit for an executable segment (`PF_X`). -/
def PF_X : Nat := 1

/-- Modulus of 32-bit unsigned arithmetic. -/
def U32 : Nat := 2 ^ 32

/-- Modulus of 64-bit (`size_t`) unsigned arithmetic. -/
def U64 : Nat := 2 ^ 64

/-- Low 32 bits of a 64-bit field, i.e. what a little-endian `uint32_t *`
view of the field reads. -/
def lo32 (x : Nat) : Nat := x % U32

/-- High 32 bits of a 64-bit field. -/
def hi32 (x : Nat) : Nat := x / U32

/-- Store `v` (truncated to 32 bits) through a little-endian `uint32_t *`
view of a 64-bit field holding `x`: the low half becomes `v % 2^32`, the
high half is untouched. -/
def setLo32 (x v : Nat) : Nat := hi32 x * U32 + v % U32

/-- Section header entry (`Elf64_Shdr`): only the fields elfio.c touches. -/
structure Elf64_Shdr where
  sh_name : Nat
  sh_addr : Nat
  sh_offset : Nat
  sh_size : Nat
deriving DecidableEq, Inhabited

/-- Program header entry (`Elf64_Phdr`): only the fields elfio.c touches. -/
structure Elf64_Phdr where
  p_flags : Nat
  p_offset : Nat
  p_vaddr : Nat
  p_filesz : Nat
  p_memsz : Nat
deriving DecidableEq, Inhabited

/-- Top-level ELF header (`Elf64_Ehdr`): the two table offsets elfio.c
rewrites.  The table sizes `e_shnum` / `e_phnum` are the lengths of the
table lists in `drow_ctx`, and `e_shstrndx` is only used for the display
name, which is omitted. -/
structure Elf64_Ehdr where
  e_shoff : Nat
  e_phoff : Nat
deriving DecidableEq, Inhabited

/-- The drow context (`drow_ctx_t`): the mapped ELF image.  `data` is the
raw byte buffer (`ctx->elf`), `size` is `ctx->size`; the typed header views
overlay that buffer in C and are carried as parallel fields here. -/
structure drow_ctx where
  ehdr : Elf64_Ehdr
  shtable : List Elf64_Shdr
  phtable : List Elf64_Phdr
  data : List Nat
  size : Nat
deriving DecidableEq, Inhabited

/-- Patch site descriptor (`struct shinfo`): in C it holds `uint32_t *`
pointers into the chosen section header entry's `sh_offset` and `sh_size`
fields plus the slack; here it binds the section by table index. -/
structure shinfo where
  idx : Nat
  slackspace : Nat
deriving DecidableEq, Inhabited

/-- Patch info (`struct patchinfo`): `base` is the patch boundary offset,
`size` the reserved room (one page). -/
structure patchinfo where
  base : Nat
  size : Nat
deriving DecidableEq, Inhabited

/-- The `uint32_t segment_end = phdr[i].p_vaddr + phdr[i].p_memsz` narrowing
in `find_exe_seg_last_section`. -/
def segment_end (ph : Elf64_Phdr) : Nat := (ph.p_vaddr + ph.p_memsz) % U32

/-- The 64-bit end address `sh_addr + sh_size` of a section header entry,
computed in `uint64` arithmetic as at elfio.c:262, i.e. wrapping mod 2^64. -/
def sh_end (sh : Elf64_Shdr) : Nat := (sh.sh_addr + sh.sh_size) % U64

/-- Inner loop of `find_exe_seg_last_section`: scan the section header table
with running index `j`; on `sh_addr + sh_size == segment_end` overwrite the
accumulator with a fresh descriptor for section `j` (slack = one page).  The
loop never breaks, so the last match wins. -/
def scan_sections (endv : Nat) : Nat → List Elf64_Shdr → Option shinfo → Option shinfo
  | _, [], acc => acc
  | j, sh :: rest, acc =>
      scan_sections endv (j + 1) rest
        (if sh_end sh = endv then some { idx := j, slackspace := pagesize } else acc)

/-- Outer loop of `find_exe_seg_last_section`: for every program header entry
flagged executable, rescan the whole section table against that segment's
truncated end address, threading the accumulator through. -/
def scan_phdrs (shtable : List Elf64_Shdr) : Nat → List Elf64_Phdr → Option shinfo → Option shinfo
  | _, [], acc => acc
  | i, ph :: rest, acc =>
      scan_phdrs shtable (i + 1) rest
        (if ph.p_flags &&& PF_X ≠ 0 then scan_sections (segment_end ph) 0 shtable acc else acc)

/-- `find_exe_seg_last_section(ctx)`: returns the descriptor of the last
(section, segment) match in scan order, or `none` when no executable segment
has a section whose (truncated) end matches. -/
def find_exe_seg_last_section (ctx : drow_ctx) : Option shinfo :=
  scan_phdrs ctx.shtable 0 ctx.phtable none

/-- Per-entry body of the section-offset loop in `expand_section`:
`if (sh_offset < base) continue; newoff = sh_offset + adjust;
sh_offset = newoff;` — `newoff` is a `uint32_t`, so the stored offset is
`(old + pagesize) % 2^32` zero-extended back into the 64-bit field. -/
def shiftShdr (base : Nat) (sh : Elf64_Shdr) : Elf64_Shdr :=
  if sh.sh_offset < base then sh
  else { sh with sh_offset := (sh.sh_offset + pagesize) % U32 }

/-- Per-entry body of the program-header loop in `expand_section`: shift
`p_offset` by one page only on the strict comparison `p_offset > base`, and
independently grow `p_filesz` and `p_memsz` of every `PF_X`-flagged entry
by one page; all three fields are `uint64`, so the additions wrap mod 2^64. -/
def shiftPhdr (base : Nat) (ph : Elf64_Phdr) : Elf64_Phdr :=
  let ph1 :=
    if base < ph.p_offset then { ph with p_offset := (ph.p_offset + pagesize) % U64 } else ph
  if ph1.p_flags &&& PF_X ≠ 0 then
    { ph1 with p_filesz := (ph1.p_filesz + pagesize) % U64,
               p_memsz := (ph1.p_memsz + pagesize) % U64 }
  else ph1

/-- `expand_section(ctx, sinfo, pinfo)`.  Order matters as in C: read
`size = *sinfo->size` (low 32 bits of the target's `sh_size`), compute
`pinfo->base = *sinfo->offset + size` and `pinfo->size = getpagesize()`,
store `size + sinfo->slackspace` back through the 32-bit view, then run the
section loop, the program-header loop, and the two top-level header fixups. -/
def expand_section (ctx : drow_ctx) (sinfo : shinfo) : drow_ctx × patchinfo :=
  let sh0 := ctx.shtable.getD sinfo.idx default
  let size := lo32 sh0.sh_size
  let base := lo32 sh0.sh_offset + size
  let pinfo : patchinfo := { base := base, size := pagesize }
  let sht1 := ctx.shtable.set sinfo.idx { sh0 with sh_size := setLo32 sh0.sh_size (size + sinfo.slackspace) }
  let sht2 := sht1.map (shiftShdr base)
  let pht2 := ctx.phtable.map (shiftPhdr base)
  let shoff2 :=
    if base < ctx.ehdr.e_shoff then (ctx.ehdr.e_shoff + pagesize) % U64 else ctx.ehdr.e_shoff
  let phoff2 :=
    if base < ctx.ehdr.e_phoff then (ctx.ehdr.e_phoff + pagesize) % U64 else ctx.ehdr.e_phoff
  ({ ctx with ehdr := { e_shoff := shoff2, e_phoff := phoff2 },
              shtable := sht2, phtable := pht2 }, pinfo)

/-- The value the relocator assigns to `pinfo->base`: low 32 bits of the
target section's `sh_offset` plus low 32 bits of its `sh_size`. -/
def patch_base (ctx : drow_ctx) (sinfo : shinfo) : Nat :=
  lo32 (ctx.shtable.getD sinfo.idx default).sh_offset
    + lo32 (ctx.shtable.getD sinfo.idx default).sh_size

/-- The `size_t padsize = pinfo->size - payload->size` computation in
`export_elf_file`, with its modulo-2^64 unsigned semantics: with an
oversized payload this underflows instead of failing. -/
def export_padsize (pinfo : patchinfo) (payload : List Nat) : Nat :=
  (pinfo.size + (U64 - payload.length % U64)) % U64

/-- The `size_t remaining = ctx->size - pinfo->base` computation in
`export_elf_file`, with its modulo-2^64 unsigned semantics. -/
def export_remaining (ctx : drow_ctx) (pinfo : patchinfo) : Nat :=
  (ctx.size + (U64 - pinfo.base % U64)) % U64

/-- `export_elf_file(ctx, payload, outfile, pinfo)`: the byte content of the
destination file, as the concatenation of the four sequential writes —
`base` bytes of the image, the payload, `padsize` zero bytes, then
`remaining` bytes of the image starting at `base` (skipped when zero, which
coincides with writing nothing).  There is no size check on the payload
before the pad subtraction. -/
def export_elf_file (ctx : drow_ctx) (payload : List Nat) (pinfo : patchinfo) : List Nat :=
  (ctx.data.take pinfo.base) ++ payload
    ++ List.replicate (export_padsize pinfo payload) 0
    ++ (ctx.data.drop pinfo.base).take (export_remaining ctx pinfo)

/-- The pipeline of the three core components in their consumption order:
Locator, then Relocator, then Exporter; `none` when the locator reports
that there is no injection site. -/
def drow_pipeline (ctx : drow_ctx) (payload : List Nat) : Option (List Nat) :=
  match find_exe_seg_last_section ctx with
  | none => none
  | some sinfo =>
      let r := expand_section ctx sinfo
      some (export_elf_file r.1 payload r.2)

/-- A (segment index, section index) pair qualifies in the locator's scan:
the program header entry at `i` is flagged executable and the section header
entry at `j` satisfies the comparison the code performs, i.e. its end
computed in `uint64` arithmetic equals the segment's end truncated to
32 bits. -/
def qual (ctx : drow_ctx) (i j : Nat) : Prop :=
  ∃ ph sh, ctx.phtable[i]? = some ph ∧ ctx.shtable[j]? = some sh ∧
    ph.p_flags &&& PF_X ≠ 0 ∧ sh_end sh = segment_end ph

/-- Index of the last section in the table (indices starting at `j`) whose
64-bit end equals `endv`; recursion mirrors the last-match-wins accumulator
of `scan_sections`. -/
def last_hit (endv : Nat) : Nat → List Elf64_Shdr → Option Nat
  | _, [] => none
  | j, sh :: rest =>
      match last_hit endv (j + 1) rest with
      | some k => some k
      | none => if sh_end sh = endv then some j else none

/-- The (segment index, section index) pair that survives the locator's
outer scan: the last executable program header entry (indices starting at
`i`) that has a matching section, paired with that segment's last matching
section index. -/
def last_seg (shtable : List Elf64_Shdr) : Nat → List Elf64_Phdr → Option (Nat × Nat)
  | _, [] => none
  | i, ph :: rest =>
      match last_seg shtable (i + 1) rest with
      | some ik => some ik
      | none =>
          if ph.p_flags &&& PF_X ≠ 0 then
            match last_hit (segment_end ph) 0 shtable with
            | some k => some (i, k)
            | none => none
          else none

/-- Concrete 16-byte image with one executable segment (flags 1, vaddr 16,
memsz 8, so segment end 24) and one section (addr 16, size 8, offset 4)
ending exactly at 24; the patch base is 4 + 8 = 12. -/
def ctxA : drow_ctx :=
  { ehdr := { e_shoff := 64, e_phoff := 32 },
    shtable := [{ sh_name := 0, sh_addr := 16, sh_offset := 4, sh_size := 8 }],
    phtable := [{ p_flags := 1, p_offset := 0, p_vaddr := 16, p_filesz := 8, p_memsz := 8 }],
    data := List.range 16,
    size := 16 }

/-- The descriptor the locator returns on `ctxA`. -/
def sinfoA : shinfo := { idx := 0, slackspace := pagesize }

/-- Payload of three bytes for the positive export example. -/
def payloadA : List Nat := [7, 7, 7]

/-- Oversized payload: one byte more than a page. -/
def payloadC7 : List Nat := List.replicate 4097 3

/-- Image whose second section header entry has `sh_offset = 2^32 - 1`;
the target (entry 0) has offset 0 and size 0, so the patch base is 0 and
entry 1 is shifted — through the 32-bit temporary. -/
def ctxB : drow_ctx :=
  { ehdr := { e_shoff := 0, e_phoff := 0 },
    shtable := [{ sh_name := 0, sh_addr := 0, sh_offset := 0, sh_size := 0 },
                { sh_name := 1, sh_addr := 0, sh_offset := 2 ^ 32 - 1, sh_size := 0 }],
    phtable := [],
    data := [],
    size := 0 }

/-- Descriptor selecting section 0 of `ctxB` with one page of slack. -/
def sinfoB : shinfo := { idx := 0, slackspace := pagesize }

/-- Image whose target section has `sh_size = 2^32` (low 32 bits zero,
high bits nonzero) and `sh_offset = 4`. -/
def ctxC : drow_ctx :=
  { ehdr := { e_shoff := 0, e_phoff := 0 },
    shtable := [{ sh_name := 0, sh_addr := 0, sh_offset := 4, sh_size := 2 ^ 32 }],
    phtable := [],
    data := [],
    size := 0 }

/-- Descriptor selecting section 0 of `ctxC` with one page of slack. -/
def sinfoC : shinfo := { idx := 0, slackspace := pagesize }

/-- Image with a non-executable program header entry whose `p_offset`
equals the patch base (the target section has offset 4 and size 4, so the
base is 8). -/
def ctxD : drow_ctx :=
  { ehdr := { e_shoff := 0, e_phoff := 0 },
    shtable := [{ sh_name := 0, sh_addr := 0, sh_offset := 4, sh_size := 4 }],
    phtable := [{ p_flags := 0, p_offset := 8, p_vaddr := 0, p_filesz := 0, p_memsz := 0 }],
    data := [],
    size := 0 }

/-- Descriptor selecting section 0 of `ctxD` with one page of slack. -/
def sinfoD : shinfo := { idx := 0, slackspace := pagesize }

/-- Image with one executable segment whose true 64-bit end is `2^32`
(`p_vaddr = 2^32`, `p_memsz = 0`) and one section whose 64-bit end is also
exactly `2^32`: the ends coincide in 64 bits, but the code's truncated
`segment_end` is 0. -/
def ctxE : drow_ctx :=
  { ehdr := { e_shoff := 0, e_phoff := 0 },
    shtable := [{ sh_name := 0, sh_addr := 2 ^ 32, sh_offset := 0, sh_size := 0 }],
    phtable := [{ p_flags := 1, p_offset := 0, p_vaddr := 2 ^ 32, p_filesz := 0, p_memsz := 0 }],
    data := [],
    size := 0 }

/-- Image with a non-executable program header entry whose `p_offset` is
`2^64 - 1`, strictly above the patch base 0 (the target section has offset
0 and size 0): the one-page shift wraps in `uint64`. -/
def ctxF : drow_ctx :=
  { ehdr := { e_shoff := 0, e_phoff := 0 },
    shtable := [{ sh_name := 0, sh_addr := 0, sh_offset := 0, sh_size := 0 }],
    phtable := [{ p_flags := 0, p_offset := 2 ^ 64 - 1, p_vaddr := 0, p_filesz := 0, p_memsz := 0 }],
    data := [],
    size := 0 }

/-- Descriptor selecting section 0 of `ctxF` with one page of slack. -/
def sinfoF : shinfo := { idx := 0, slackspace := pagesize }

/-- Image whose top-level header has `e_shoff = 2^64 - 1`, strictly above
the patch base 0: the one-page fixup wraps in `uint64`. -/
def ctxG : drow_ctx :=
  { ehdr := { e_shoff := 2 ^ 64 - 1, e_phoff := 0 },
    shtable := [{ sh_name := 0, sh_addr := 0, sh_offset := 0, sh_size := 0 }],
    phtable := [],
    data := [],
    size := 0 }

/-- Descriptor selecting section 0 of `ctxG` with one page of slack. -/
def sinfoG : shinfo := { idx := 0, slackspace := pagesize }

/-- Image with one executable segment whose true mathematical end is
`p_vaddr + p_memsz = 2^32 + (2^64 - 2^32) = 2^64` (so at least `2^32`) and
one section with `sh_addr = 2^64 - 1`, `sh_size = 1`, whose mathematical end
is also `2^64`: in the code both wrap — the `uint64` section end to 0 and
the `uint32_t segment_end` to 0 — so the section is matched. -/
def ctxH : drow_ctx :=
  { ehdr := { e_shoff := 0, e_phoff := 0 },
    shtable := [{ sh_name := 0, sh_addr := 2 ^ 64 - 1, sh_offset := 0, sh_size := 1 }],
    phtable := [{ p_flags := 1, p_offset := 0, p_vaddr := 2 ^ 32, p_filesz := 0,
                  p_memsz := 2 ^ 64 - 2 ^ 32 }],
    data := [],
    size := 0 }

example : lo32 (2 ^ 32 + 5) = 5 := by decide
example : setLo32 (2 ^ 32 + 5) (2 ^ 32 + 7) = 2 ^ 32 + 7 := by decide
example : find_exe_seg_last_section ctxA = some sinfoA := by decide
example : (expand_section ctxA sinfoA).2 = { base := 12, size := 4096 } := by decide
example : find_exe_seg_last_section ctxE = none := by decide

theorem lo32_setLo32 (x v : Nat) : lo32 (setLo32 x v) = v % U32 := by
  simp only [lo32, setLo32, hi32, U32]
  omega

theorem hi32_setLo32 (x v : Nat) : hi32 (setLo32 x v) = hi32 x := by
  simp only [lo32, setLo32, hi32, U32]
  omega

theorem getElem?_some_lt_length {l : List Elf64_Shdr} {i : Nat} {a : Elf64_Shdr}
    (h : l[i]? = some a) : i < l.length := by
  by_contra hl
  rw [List.getElem?_eq_none (by omega)] at h
  exact Option.noConfusion h

theorem getD_of_getElem? {l : List Elf64_Shdr} {i : Nat} {a : Elf64_Shdr}
    (h : l[i]? = some a) : l.getD i default = a := by
  unfold List.getD
  rw [List.get?_eq_getElem?, h]
  rfl

/-- After `expand_section`, the section table entry at `i` is the original
entry — with its `sh_size` low half rewritten when `i` is the target —
passed through the offset-shift loop body. -/
theorem shtable_entry_after_expand (ctx : drow_ctx) (sinfo : shinfo) (i : Nat)
    (sh : Elf64_Shdr) (h : ctx.shtable[i]? = some sh) :
    (expand_section ctx sinfo).1.shtable[i]? =
      some (shiftShdr (patch_base ctx sinfo)
        (if i = sinfo.idx
         then { sh with sh_size := setLo32 sh.sh_size (lo32 sh.sh_size + sinfo.slackspace) }
         else sh)) := by
  have hlen : i < ctx.shtable.length := getElem?_some_lt_length h
  simp only [expand_section, patch_base, List.getElem?_map]
  by_cases hij : i = sinfo.idx
  · subst hij
    rw [getD_of_getElem? h, List.getElem?_set_eq_of_lt _ hlen]
    simp
  · rw [List.getElem?_set_ne (fun he => hij he.symm), h]
    simp [hij]

/-- After `expand_section`, the program header table entry at `i` is the
original entry passed through the program-header loop body. -/
theorem phtable_entry_after_expand (ctx : drow_ctx) (sinfo : shinfo) (i : Nat)
    (ph : Elf64_Phdr) (h : ctx.phtable[i]? = some ph) :
    (expand_section ctx sinfo).1.phtable[i]? =
      some (shiftPhdr (patch_base ctx sinfo) ph) := by
  simp only [expand_section, patch_base, List.getElem?_map]
  rw [h]
  rfl

/-- C2 (amended): after `expand_section`, a section header entry whose
`sh_offset` was at least the base (inclusive at the boundary) has its
`sh_offset` set to `(old + pagesize) % 2^32` — the addition passes through
the `uint32_t newoff` temporary — and an entry strictly below the base is
unchanged. -/
theorem expand_section_shoffset_rule (ctx : drow_ctx) (sinfo : shinfo) (i : Nat)
    (sh sh' : Elf64_Shdr) (h : ctx.shtable[i]? = some sh)
    (h' : (expand_section ctx sinfo).1.shtable[i]? = some sh') :
    sh'.sh_offset =
      if patch_base ctx sinfo ≤ sh.sh_offset
      then (sh.sh_offset + pagesize) % U32
      else sh.sh_offset := by
  rw [shtable_entry_after_expand ctx sinfo i sh h] at h'
  have hsh : sh' = shiftShdr (patch_base ctx sinfo)
      (if i = sinfo.idx
       then { sh with sh_size := setLo32 sh.sh_size (lo32 sh.sh_size + sinfo.slackspace) }
       else sh) := by
    exact (Option.some_injective _ h').symm
  subst hsh
  by_cases hij : i = sinfo.idx <;>
    simp only [hij, if_true, if_false, shiftShdr] <;>
    split_ifs <;> simp_all <;> omega

/-- Witness for `expand_section_shoffset_rule` at `ctxA`: the single section
starts at offset 4, strictly below the base 12, and is untouched. -/
theorem expand_section_shoffset_rule_inst :
    ({ sh_name := 0, sh_addr := 16, sh_offset := 4, sh_size := 4104 } : Elf64_Shdr).sh_offset =
      if patch_base ctxA sinfoA ≤
          ({ sh_name := 0, sh_addr := 16, sh_offset := 4, sh_size := 8 } : Elf64_Shdr).sh_offset
      then (({ sh_name := 0, sh_addr := 16, sh_offset := 4, sh_size := 8 } : Elf64_Shdr).sh_offset
              + pagesize) % U32
      else ({ sh_name := 0, sh_addr := 16, sh_offset := 4, sh_size := 8 } : Elf64_Shdr).sh_offset :=
  expand_section_shoffset_rule ctxA sinfoA 0 _ _ (by decide) (by decide)

/-- C2 (counterexample to the claim as stated): in `ctxB` the patch base is
0 and the section at index 1 has `sh_offset = 2^32 - 1 ≥ 0`, yet after
`expand_section` its `sh_offset` is 4095, not `(2^32 - 1) + 4096`: the
shift is not an increase by exactly one page. -/
theorem expand_section_shoffset_wraps :
    (expand_section ctxB sinfoB).2.base ≤ (ctxB.shtable.getD 1 default).sh_offset ∧
    ((expand_section ctxB sinfoB).1.shtable.getD 1 default).sh_offset ≠
      (ctxB.shtable.getD 1 default).sh_offset + pagesize := by
  decide

/-- C3 (amended): after `expand_section`, a program header entry's
`p_offset` becomes `(old + one page) mod 2^64` exactly when it was strictly
greater than the base (the field is a `uint64`), and — independently of its
offset — its `p_filesz` and `p_memsz` become `(old + one page) mod 2^64`
exactly when the entry is flagged executable; otherwise each field is
unchanged. -/
theorem expand_section_phdr_rule (ctx : drow_ctx) (sinfo : shinfo) (i : Nat)
    (ph ph' : Elf64_Phdr) (h : ctx.phtable[i]? = some ph)
    (h' : (expand_section ctx sinfo).1.phtable[i]? = some ph') :
    ph'.p_offset =
      (if patch_base ctx sinfo < ph.p_offset
       then (ph.p_offset + pagesize) % U64 else ph.p_offset) ∧
    ph'.p_filesz =
      (if ph.p_flags &&& PF_X ≠ 0 then (ph.p_filesz + pagesize) % U64 else ph.p_filesz) ∧
    ph'.p_memsz =
      (if ph.p_flags &&& PF_X ≠ 0 then (ph.p_memsz + pagesize) % U64 else ph.p_memsz) := by
  rw [phtable_entry_after_expand ctx sinfo i ph h] at h'
  have hph : ph' = shiftPhdr (patch_base ctx sinfo) ph :=
    (Option.some_injective _ h').symm
  subst hph
  simp only [shiftPhdr]
  split_ifs <;> simp_all

/-- Witness for `expand_section_phdr_rule` at `ctxA`: the executable segment
keeps `p_offset = 0` (not above the base 12) and grows both sizes from 8 to
8 + 4096. -/
theorem expand_section_phdr_rule_inst :
    ({ p_flags := 1, p_offset := 0, p_vaddr := 16, p_filesz := 4104, p_memsz := 4104 } : Elf64_Phdr).p_offset =
      (if patch_base ctxA sinfoA <
          ({ p_flags := 1, p_offset := 0, p_vaddr := 16, p_filesz := 8, p_memsz := 8 } : Elf64_Phdr).p_offset
       then (({ p_flags := 1, p_offset := 0, p_vaddr := 16, p_filesz := 8, p_memsz := 8 } : Elf64_Phdr).p_offset + pagesize) % U64
       else ({ p_flags := 1, p_offset := 0, p_vaddr := 16, p_filesz := 8, p_memsz := 8 } : Elf64_Phdr).p_offset) ∧
    ({ p_flags := 1, p_offset := 0, p_vaddr := 16, p_filesz := 4104, p_memsz := 4104 } : Elf64_Phdr).p_filesz =
      (if ({ p_flags := 1, p_offset := 0, p_vaddr := 16, p_filesz := 8, p_memsz := 8 } : Elf64_Phdr).p_flags &&& PF_X ≠ 0
       then (({ p_flags := 1, p_offset := 0, p_vaddr := 16, p_filesz := 8, p_memsz := 8 } : Elf64_Phdr).p_filesz + pagesize) % U64
       else ({ p_flags := 1, p_offset := 0, p_vaddr := 16, p_filesz := 8, p_memsz := 8 } : Elf64_Phdr).p_filesz) ∧
    ({ p_flags := 1, p_offset := 0, p_vaddr := 16, p_filesz := 4104, p_memsz := 4104 } : Elf64_Phdr).p_memsz =
      (if ({ p_flags := 1, p_offset := 0, p_vaddr := 16, p_filesz := 8, p_memsz := 8 } : Elf64_Phdr).p_flags &&& PF_X ≠ 0
       then (({ p_flags := 1, p_offset := 0, p_vaddr := 16, p_filesz := 8, p_memsz := 8 } : Elf64_Phdr).p_memsz + pagesize) % U64
       else ({ p_flags := 1, p_offset := 0, p_vaddr := 16, p_filesz := 8, p_memsz := 8 } : Elf64_Phdr).p_memsz) :=
  expand_section_phdr_rule ctxA sinfoA 0 _ _ (by decide) (by decide)

/-- C3 (counterexample to the claim as stated): in `ctxF` the program
header entry has `p_offset = 2^64 - 1`, strictly greater than the patch
base 0, yet after `expand_section` its `p_offset` is 4095, not
`(2^64 - 1) + 4096`: the `uint64` addition wraps, so the shift is not an
increase by exactly one page. -/
theorem expand_section_poffset_wraps :
    (expand_section ctxF sinfoF).2.base < (ctxF.phtable.getD 0 default).p_offset ∧
    ((expand_section ctxF sinfoF).1.phtable.getD 0 default).p_offset ≠
      (ctxF.phtable.getD 0 default).p_offset + pagesize := by
  decide

/-- C5 (amended): `expand_section` sets the top-level header's `e_shoff` to
`(old + one page) mod 2^64` exactly when it was strictly greater than the
base (the field is a `uint64`), and likewise for `e_phoff`; otherwise each
is unchanged. -/
theorem expand_section_ehdr_rule (ctx : drow_ctx) (sinfo : shinfo) :
    ((expand_section ctx sinfo).1.ehdr.e_shoff =
        if patch_base ctx sinfo < ctx.ehdr.e_shoff
        then (ctx.ehdr.e_shoff + pagesize) % U64 else ctx.ehdr.e_shoff) ∧
    ((expand_section ctx sinfo).1.ehdr.e_phoff =
        if patch_base ctx sinfo < ctx.ehdr.e_phoff
        then (ctx.ehdr.e_phoff + pagesize) % U64 else ctx.ehdr.e_phoff) := by
  simp only [expand_section, patch_base]
  exact ⟨trivial, trivial⟩

/-- C5 (counterexample to the claim as stated): in `ctxG` the top-level
header has `e_shoff = 2^64 - 1`, strictly greater than the patch base 0,
yet after `expand_section` it is 4095, not `(2^64 - 1) + 4096`: the
`uint64` addition wraps, so the fixup is not an increase by exactly one
page. -/
theorem expand_section_eshoff_wraps :
    patch_base ctxG sinfoG < ctxG.ehdr.e_shoff ∧
    (expand_section ctxG sinfoG).1.ehdr.e_shoff ≠ ctxG.ehdr.e_shoff + pagesize := by
  decide

/-- C4 (amended): `expand_section` sets the patch base to the sum of the low
32 bits of the target section's `sh_offset` and `sh_size` (read through the
descriptor's `uint32_t *` views), sets the reserved size to one page, and
rewrites only the low 32 bits of the target's `sh_size` to
`(low 32 bits of the old size + slack) % 2^32`, leaving the high bits
unchanged; the returned patch info carries exactly these values. -/
theorem expand_section_patchinfo_rule (ctx : drow_ctx) (sinfo : shinfo)
    (sh sh' : Elf64_Shdr) (h : ctx.shtable[sinfo.idx]? = some sh)
    (h' : (expand_section ctx sinfo).1.shtable[sinfo.idx]? = some sh') :
    (expand_section ctx sinfo).2.base = lo32 sh.sh_offset + lo32 sh.sh_size ∧
    (expand_section ctx sinfo).2.size = pagesize ∧
    lo32 sh'.sh_size = (lo32 sh.sh_size + sinfo.slackspace) % U32 ∧
    hi32 sh'.sh_size = hi32 sh.sh_size := by
  have hbase : (expand_section ctx sinfo).2 =
      { base := patch_base ctx sinfo, size := pagesize } := rfl
  rw [shtable_entry_after_expand ctx sinfo sinfo.idx sh h] at h'
  have hsh : sh' = shiftShdr (patch_base ctx sinfo)
      { sh with sh_size := setLo32 sh.sh_size (lo32 sh.sh_size + sinfo.slackspace) } := by
    have := (Option.some_injective _ h').symm
    simpa using this
  subst hsh
  have hD : ctx.shtable.getD sinfo.idx default = sh := getD_of_getElem? h
  refine ⟨?_, rfl, ?_, ?_⟩
  · rw [hbase]
    simp only [patch_base]
    rw [hD]
  · simp only [shiftShdr]
    split_ifs <;> simp [lo32_setLo32]
  · simp only [shiftShdr]
    split_ifs <;> simp [hi32_setLo32]

/-- Witness for `expand_section_patchinfo_rule` at `ctxA`: base 4 + 8 = 12,
reserved size one page, and the target's size 8 grows to 8 + 4096 in the
low half. -/
theorem expand_section_patchinfo_rule_inst :
    (expand_section ctxA sinfoA).2.base =
        lo32 ({ sh_name := 0, sh_addr := 16, sh_offset := 4, sh_size := 8 } : Elf64_Shdr).sh_offset
          + lo32 ({ sh_name := 0, sh_addr := 16, sh_offset := 4, sh_size := 8 } : Elf64_Shdr).sh_size ∧
    (expand_section ctxA sinfoA).2.size = pagesize ∧
    lo32 ({ sh_name := 0, sh_addr := 16, sh_offset := 4, sh_size := 4104 } : Elf64_Shdr).sh_size =
        (lo32 ({ sh_name := 0, sh_addr := 16, sh_offset := 4, sh_size := 8 } : Elf64_Shdr).sh_size
          + sinfoA.slackspace) % U32 ∧
    hi32 ({ sh_name := 0, sh_addr := 16, sh_offset := 4, sh_size := 4104 } : Elf64_Shdr).sh_size =
        hi32 ({ sh_name := 0, sh_addr := 16, sh_offset := 4, sh_size := 8 } : Elf64_Shdr).sh_size :=
  expand_section_patchinfo_rule ctxA sinfoA _ _ (by decide) (by decide)

/-- C4 (counterexample to the claim as stated): in `ctxC` the target section
has `sh_offset = 4` and `sh_size = 2^32`, so offset field value plus size
field value is `2^32 + 4`; but `expand_section` reads the size through a
32-bit view (low half 0) and sets the base to 4. -/
theorem expand_section_base_not_field_sum :
    (expand_section ctxC sinfoC).2.base ≠
      (ctxC.shtable.getD 0 default).sh_offset + (ctxC.shtable.getD 0 default).sh_size := by
  decide

/-- C8 (amended): after `expand_section`, section header offsets follow the
inclusive rule with 32-bit truncation — `sh_offset ≥ base` becomes
`(old + pagesize) % 2^32`, below base unchanged — while program header
offsets follow the strict rule in `uint64` arithmetic: `p_offset > base`
becomes `(old + pagesize) % 2^64`, and `p_offset ≤ base` (including
equality) is unchanged. -/
theorem expand_section_offset_rules (ctx : drow_ctx) (sinfo : shinfo) (i j : Nat)
    (sh sh' : Elf64_Shdr) (ph ph' : Elf64_Phdr)
    (hs : ctx.shtable[i]? = some sh)
    (hs' : (expand_section ctx sinfo).1.shtable[i]? = some sh')
    (hp : ctx.phtable[j]? = some ph)
    (hp' : (expand_section ctx sinfo).1.phtable[j]? = some ph') :
    sh'.sh_offset =
      (if patch_base ctx sinfo ≤ sh.sh_offset
       then (sh.sh_offset + pagesize) % U32 else sh.sh_offset) ∧
    ph'.p_offset =
      (if patch_base ctx sinfo < ph.p_offset
       then (ph.p_offset + pagesize) % U64 else ph.p_offset) := by
  constructor
  · rw [shtable_entry_after_expand ctx sinfo i sh hs] at hs'
    have hsh : sh' = shiftShdr (patch_base ctx sinfo)
        (if i = sinfo.idx
         then { sh with sh_size := setLo32 sh.sh_size (lo32 sh.sh_size + sinfo.slackspace) }
         else sh) := (Option.some_injective _ hs').symm
    subst hsh
    by_cases hij : i = sinfo.idx <;>
      simp only [hij, if_true, if_false, shiftShdr] <;>
      split_ifs <;> simp_all <;> omega
  · rw [phtable_entry_after_expand ctx sinfo j ph hp] at hp'
    have hph : ph' = shiftPhdr (patch_base ctx sinfo) ph :=
      (Option.some_injective _ hp').symm
    subst hph
    simp only [shiftPhdr]
    split_ifs <;> simp_all

/-- Witness for `expand_section_offset_rules` at `ctxA`, section 0 and
program header 0. -/
theorem expand_section_offset_rules_inst :
    ({ sh_name := 0, sh_addr := 16, sh_offset := 4, sh_size := 4104 } : Elf64_Shdr).sh_offset =
      (if patch_base ctxA sinfoA ≤
          ({ sh_name := 0, sh_addr := 16, sh_offset := 4, sh_size := 8 } : Elf64_Shdr).sh_offset
       then (({ sh_name := 0, sh_addr := 16, sh_offset := 4, sh_size := 8 } : Elf64_Shdr).sh_offset
               + pagesize) % U32
       else ({ sh_name := 0, sh_addr := 16, sh_offset := 4, sh_size := 8 } : Elf64_Shdr).sh_offset) ∧
    ({ p_flags := 1, p_offset := 0, p_vaddr := 16, p_filesz := 4104, p_memsz := 4104 } : Elf64_Phdr).p_offset =
      (if patch_base ctxA sinfoA <
          ({ p_flags := 1, p_offset := 0, p_vaddr := 16, p_filesz := 8, p_memsz := 8 } : Elf64_Phdr).p_offset
       then (({ p_flags := 1, p_offset := 0, p_vaddr := 16, p_filesz := 8, p_memsz := 8 } : Elf64_Phdr).p_offset + pagesize) % U64
       else ({ p_flags := 1, p_offset := 0, p_vaddr := 16, p_filesz := 8, p_memsz := 8 } : Elf64_Phdr).p_offset) :=
  expand_section_offset_rules ctxA sinfoA 0 0 _ _ _ _
    (by decide) (by decide) (by decide) (by decide)

/-- C8 (counterexample to the claim as stated): in `ctxD` the program header
entry has `p_offset = 8`, equal to the patch base 8, so by the claim's
inclusive rule it should grow by one page; `expand_section` uses the strict
comparison and leaves it at 8. -/
theorem expand_section_phdr_at_base_unmoved :
    (expand_section ctxD sinfoD).2.base ≤ (ctxD.phtable.getD 0 default).p_offset ∧
    ((expand_section ctxD sinfoD).1.phtable.getD 0 default).p_offset ≠
      (ctxD.phtable.getD 0 default).p_offset + pagesize := by
  decide

/-- C9 (as stated): the relocator's section arithmetic is 32-bit — a shifted
entry's stored `sh_offset` is `(old + pagesize) % 2^32` (via the `uint32_t`
temporary), the patch base is computed from the low 32 bits of the target's
`sh_offset` and `sh_size` fields (the descriptor's 32-bit views), and the
growth is written back to only the low 32 bits of the target's `sh_size`,
the high bits surviving unchanged. -/
theorem expand_section_32bit_arithmetic (ctx : drow_ctx) (sinfo : shinfo)
    (sh0 : Elf64_Shdr) (h0 : ctx.shtable[sinfo.idx]? = some sh0)
    (i : Nat) (sh sh' : Elf64_Shdr)
    (hi : ctx.shtable[i]? = some sh)
    (hi' : (expand_section ctx sinfo).1.shtable[i]? = some sh')
    (hge : patch_base ctx sinfo ≤ sh.sh_offset) :
    sh'.sh_offset = (sh.sh_offset + pagesize) % U32 ∧
    (expand_section ctx sinfo).2.base = lo32 sh0.sh_offset + lo32 sh0.sh_size ∧
    (∀ sh1, (expand_section ctx sinfo).1.shtable[sinfo.idx]? = some sh1 →
        lo32 sh1.sh_size = (lo32 sh0.sh_size + sinfo.slackspace) % U32 ∧
        hi32 sh1.sh_size = hi32 sh0.sh_size) := by
  refine ⟨?_, ?_, ?_⟩
  · rw [shtable_entry_after_expand ctx sinfo i sh hi] at hi'
    have hsh : sh' = shiftShdr (patch_base ctx sinfo)
        (if i = sinfo.idx
         then { sh with sh_size := setLo32 sh.sh_size (lo32 sh.sh_size + sinfo.slackspace) }
         else sh) := (Option.some_injective _ hi').symm
    subst hsh
    by_cases hij : i = sinfo.idx <;>
      simp only [hij, if_true, if_false, shiftShdr] <;>
      split_ifs <;> simp_all <;> omega
  · have hD : ctx.shtable.getD sinfo.idx default = sh0 := getD_of_getElem? h0
    have hbase : (expand_section ctx sinfo).2 =
        { base := patch_base ctx sinfo, size := pagesize } := rfl
    rw [hbase]
    simp only [patch_base]
    rw [hD]
  · intro sh1 h1
    rw [shtable_entry_after_expand ctx sinfo sinfo.idx sh0 h0] at h1
    have hsh : sh1 = shiftShdr (patch_base ctx sinfo)
        { sh0 with sh_size := setLo32 sh0.sh_size (lo32 sh0.sh_size + sinfo.slackspace) } := by
      have := (Option.some_injective _ h1).symm
      simpa using this
    subst hsh
    constructor
    · simp only [shiftShdr]
      split_ifs <;> simp [lo32_setLo32]
    · simp only [shiftShdr]
      split_ifs <;> simp [hi32_setLo32]

/-- Witness for `expand_section_32bit_arithmetic` at `ctxB`: the base is 0,
the section at index 1 with `sh_offset = 2^32 - 1` is stored back as 4095,
and the target's size low half becomes 4096 with high half 0. -/
theorem expand_section_32bit_arithmetic_inst :
    ({ sh_name := 1, sh_addr := 0, sh_offset := 4095, sh_size := 0 } : Elf64_Shdr).sh_offset =
      (({ sh_name := 1, sh_addr := 0, sh_offset := 2 ^ 32 - 1, sh_size := 0 } : Elf64_Shdr).sh_offset
        + pagesize) % U32 ∧
    (expand_section ctxB sinfoB).2.base =
      lo32 ({ sh_name := 0, sh_addr := 0, sh_offset := 0, sh_size := 0 } : Elf64_Shdr).sh_offset
        + lo32 ({ sh_name := 0, sh_addr := 0, sh_offset := 0, sh_size := 0 } : Elf64_Shdr).sh_size ∧
    (∀ sh1, (expand_section ctxB sinfoB).1.shtable[sinfoB.idx]? = some sh1 →
        lo32 sh1.sh_size =
          (lo32 ({ sh_name := 0, sh_addr := 0, sh_offset := 0, sh_size := 0 } : Elf64_Shdr).sh_size
            + sinfoB.slackspace) % U32 ∧
        hi32 sh1.sh_size =
          hi32 ({ sh_name := 0, sh_addr := 0, sh_offset := 0, sh_size := 0 } : Elf64_Shdr).sh_size) :=
  expand_section_32bit_arithmetic ctxB sinfoB _ (by decide) 1 _ _
    (by decide) (by decide) (by decide)

/-- The accumulator form of the inner section scan equals its last-match
summary `last_hit`. -/
theorem scan_sections_eq_last_hit (endv : Nat) (l : List Elf64_Shdr) :
    ∀ (j : Nat) (acc : Option shinfo),
      scan_sections endv j l acc =
        match last_hit endv j l with
        | some k => some { idx := k, slackspace := pagesize }
        | none => acc := by
  induction l with
  | nil => intro j acc; rfl
  | cons sh rest ih =>
    intro j acc
    simp only [scan_sections, last_hit]
    rw [ih (j + 1)]
    cases hr : last_hit endv (j + 1) rest with
    | some k => simp
    | none => split_ifs <;> simp

/-- `last_hit` returns `none` exactly when no section in the list has the
given end value. -/
theorem last_hit_eq_none_iff (endv : Nat) (l : List Elf64_Shdr) :
    ∀ j : Nat, last_hit endv j l = none ↔
      ∀ (m : Nat) (sh : Elf64_Shdr), l[m]? = some sh → sh_end sh ≠ endv := by
  induction l with
  | nil =>
    intro j
    constructor
    · intro _ m sh hm
      rw [List.getElem?_nil] at hm
      exact Option.noConfusion hm
    · intro _
      rfl
  | cons sh rest ih =>
    intro j
    simp only [last_hit]
    constructor
    · intro h m sh' hm
      cases hr : last_hit endv (j + 1) rest with
      | some k => rw [hr] at h; exact absurd h (by simp)
      | none =>
        rw [hr] at h
        cases m with
        | zero =>
          simp only [List.getElem?_cons_zero, Option.some_inj] at hm
          subst hm
          intro hc
          rw [if_pos hc] at h
          exact Option.noConfusion h
        | succ m' =>
          exact ((ih (j + 1)).1 hr) m' sh' (by simpa using hm)
    · intro hall
      have hr : last_hit endv (j + 1) rest = none :=
        (ih (j + 1)).2 (fun m sh' hm => hall (m + 1) sh' (by simpa using hm))
      rw [hr]
      have hne : sh_end sh ≠ endv := hall 0 sh (by simp)
      simp [hne]

/-- `last_hit` returns `some k` exactly when the section at relative index
`k - j` has the given end value and no later section does. -/
theorem last_hit_eq_some_iff (endv : Nat) (l : List Elf64_Shdr) :
    ∀ j k : Nat, last_hit endv j l = some k ↔
      ∃ (m : Nat) (sh : Elf64_Shdr), l[m]? = some sh ∧ sh_end sh = endv ∧ k = j + m ∧
        ∀ (m' : Nat) (sh' : Elf64_Shdr), m < m' → l[m']? = some sh' → sh_end sh' ≠ endv := by
  induction l with
  | nil => intro j k; simp [last_hit]
  | cons sh rest ih =>
    intro j k
    simp only [last_hit]
    cases hr : last_hit endv (j + 1) rest with
    | some k0 =>
      rcases (ih (j + 1) k0).1 hr with ⟨m0, sh0, hm0, hhit0, hk0, hmax0⟩
      constructor
      · intro h
        have hk : k0 = k := by simpa using h
        subst hk
        refine ⟨m0 + 1, sh0, by simpa using hm0, hhit0, by omega, ?_⟩
        intro m' sh' hlt hm' hcon
        cases m' with
        | zero => omega
        | succ m'' => exact hmax0 m'' sh' (by omega) (by simpa using hm') hcon
      · rintro ⟨m, shm, hm, hhit, hk, hmax⟩
        cases m with
        | zero =>
          exfalso
          have : ∀ (m' : Nat) (sh' : Elf64_Shdr), rest[m']? = some sh' → sh_end sh' ≠ endv := by
            intro m' sh' hm'
            exact hmax (m' + 1) sh' (by omega) (by simpa using hm')
          rw [(last_hit_eq_none_iff endv rest (j + 1)).2 this] at hr
          exact Option.noConfusion hr
        | succ m'' =>
          have hm'' : rest[m'']? = some shm := by simpa using hm
          have hmax'' : ∀ (m' : Nat) (sh' : Elf64_Shdr), m'' < m' → rest[m']? = some sh' → sh_end sh' ≠ endv := by
            intro m' sh' hlt hm'
            exact hmax (m' + 1) sh' (by omega) (by simpa using hm')
          have : last_hit endv (j + 1) rest = some ((j + 1) + m'') :=
            (ih (j + 1) ((j + 1) + m'')).2 ⟨m'', shm, hm'', hhit, rfl, hmax''⟩
          rw [hr] at this
          have : k0 = (j + 1) + m'' := by simpa using this
          simp only [Option.some_inj]
          omega
    | none =>
      have hnone : ∀ m' sh', rest[m']? = some sh' → sh_end sh' ≠ endv :=
        (last_hit_eq_none_iff endv rest (j + 1)).1 hr
      split_ifs with hc
      · constructor
        · intro h
          have hk : j = k := by simpa using h
          subst hk
          refine ⟨0, sh, by simp, hc, by omega, ?_⟩
          intro m' sh' hlt hm'
          cases m' with
          | zero => omega
          | succ m'' => exact hnone m'' sh' (by simpa using hm')
        · rintro ⟨m, shm, hm, hhit, hk, hmax⟩
          cases m with
          | zero =>
            simp only [List.getElem?_cons_zero, Option.some_inj] at hm
            simp only [Option.some_inj]
            omega
          | succ m'' =>
            exfalso
            exact hnone m'' shm (by simpa using hm) hhit
      · constructor
        · intro h; exact absurd h (by simp)
        · rintro ⟨m, shm, hm, hhit, hk, hmax⟩
          exfalso
          cases m with
          | zero =>
            simp only [List.getElem?_cons_zero, Option.some_inj] at hm
            subst hm
            exact hc hhit
          | succ m'' =>
            exact hnone m'' shm (by simpa using hm) hhit

/-- The accumulator form of the outer program-header scan equals its
last-match summary `last_seg`. -/
theorem scan_phdrs_eq_last_seg (sht : List Elf64_Shdr) (l : List Elf64_Phdr) :
    ∀ (i : Nat) (acc : Option shinfo),
      scan_phdrs sht i l acc =
        match last_seg sht i l with
        | some ik => some { idx := ik.2, slackspace := pagesize }
        | none => acc := by
  induction l with
  | nil => intro i acc; rfl
  | cons ph rest ih =>
    intro i acc
    simp only [scan_phdrs, last_seg]
    rw [ih (i + 1)]
    cases hr : last_seg sht (i + 1) rest with
    | some ik => simp
    | none =>
      split_ifs with hx
      · rw [scan_sections_eq_last_hit]
        cases hh : last_hit (segment_end ph) 0 sht <;> simp
      · simp

/-- A program header entry contributes no match: it is either not
executable or no section's 64-bit end equals its truncated end. -/
theorem last_seg_eq_none_iff (sht : List Elf64_Shdr) (l : List Elf64_Phdr) :
    ∀ i : Nat, last_seg sht i l = none ↔
      ∀ (m : Nat) (ph : Elf64_Phdr), l[m]? = some ph → ph.p_flags &&& PF_X ≠ 0 →
        ∀ (n : Nat) (sh : Elf64_Shdr), sht[n]? = some sh → sh_end sh ≠ segment_end ph := by
  induction l with
  | nil =>
    intro i
    constructor
    · intro _ m ph hm
      rw [List.getElem?_nil] at hm
      exact absurd hm (by simp)
    · intro _
      rfl
  | cons ph rest ih =>
    intro i
    simp only [last_seg]
    constructor
    · intro h m ph' hm hx n sh hn
      cases hr : last_seg sht (i + 1) rest with
      | some ik => rw [hr] at h; exact absurd h (by simp)
      | none =>
        rw [hr] at h
        cases m with
        | zero =>
          simp only [List.getElem?_cons_zero, Option.some_inj] at hm
          subst hm
          rw [if_pos hx] at h
          cases hh : last_hit (segment_end ph) 0 sht with
          | some k => rw [hh] at h; exact absurd h (by simp)
          | none => exact (last_hit_eq_none_iff (segment_end ph) sht 0).1 hh n sh hn
        | succ m' =>
          exact ((ih (i + 1)).1 hr) m' ph' (by simpa using hm) hx n sh hn
    · intro hall
      have hr : last_seg sht (i + 1) rest = none :=
        (ih (i + 1)).2 (fun m ph' hm => hall (m + 1) ph' (by simpa using hm))
      rw [hr]
      by_cases hx : ph.p_flags &&& PF_X ≠ 0
      · rw [if_pos hx]
        have hh : last_hit (segment_end ph) 0 sht = none :=
          (last_hit_eq_none_iff (segment_end ph) sht 0).2 (hall 0 ph (by simp) hx)
        rw [hh]
      · rw [if_neg hx]

/-- The surviving pair of the outer scan: the last executable entry with a
matching section, paired with that segment's own last matching section. -/
theorem last_seg_eq_some_iff (sht : List Elf64_Shdr) (l : List Elf64_Phdr) :
    ∀ i i0 k : Nat, last_seg sht i l = some (i0, k) ↔
      ∃ (m : Nat) (ph : Elf64_Phdr), l[m]? = some ph ∧ ph.p_flags &&& PF_X ≠ 0 ∧
        i0 = i + m ∧ last_hit (segment_end ph) 0 sht = some k ∧
        ∀ (m' : Nat) (ph' : Elf64_Phdr), m < m' → l[m']? = some ph' →
          ph'.p_flags &&& PF_X ≠ 0 →
          ∀ (n : Nat) (sh : Elf64_Shdr), sht[n]? = some sh → sh_end sh ≠ segment_end ph' := by
  induction l with
  | nil =>
    intro i i0 k
    constructor
    · intro h; exact absurd h (by simp [last_seg])
    · rintro ⟨m, ph, hm, -⟩
      rw [List.getElem?_nil] at hm
      exact absurd hm (by simp)
  | cons ph rest ih =>
    intro i i0 k
    simp only [last_seg]
    cases hr : last_seg sht (i + 1) rest with
    | some ik =>
      rcases (ih (i + 1) ik.1 ik.2).1 (by rw [hr]) with ⟨m0, ph0, hm0, hx0, hi0, hh0, hmax0⟩
      constructor
      · intro h
        have hik : ik = (i0, k) := by simpa using h
        subst hik
        have hi0' : i0 = (i + 1) + m0 := by simpa using hi0
        have hh0' : last_hit (segment_end ph0) 0 sht = some k := by simpa using hh0
        refine ⟨m0 + 1, ph0, by simpa using hm0, hx0, by omega, hh0', ?_⟩
        intro m' ph' hlt hm' hx' n sh hn
        cases m' with
        | zero => omega
        | succ m'' => exact hmax0 m'' ph' (by omega) (by simpa using hm') hx' n sh hn
      · rintro ⟨m, phm, hm, hx, hi, hh, hmax⟩
        cases m with
        | zero =>
          exfalso
          have : ∀ (m' : Nat) (ph' : Elf64_Phdr), rest[m']? = some ph' →
              ph'.p_flags &&& PF_X ≠ 0 →
              ∀ (n : Nat) (sh : Elf64_Shdr), sht[n]? = some sh →
                sh_end sh ≠ segment_end ph' := by
            intro m' ph' hm' hx' n sh hn
            exact hmax (m' + 1) ph' (by omega) (by simpa using hm') hx' n sh hn
          rw [(last_seg_eq_none_iff sht rest (i + 1)).2 this] at hr
          exact Option.noConfusion hr
        | succ m'' =>
          have hm'' : rest[m'']? = some phm := by simpa using hm
          have hmax'' : ∀ (m' : Nat) (ph' : Elf64_Phdr), m'' < m' → rest[m']? = some ph' →
              ph'.p_flags &&& PF_X ≠ 0 →
              ∀ (n : Nat) (sh : Elf64_Shdr), sht[n]? = some sh →
                sh_end sh ≠ segment_end ph' := by
            intro m' ph' hlt hm' hx' n sh hn
            exact hmax (m' + 1) ph' (by omega) (by simpa using hm') hx' n sh hn
          have hsome : last_seg sht (i + 1) rest = some ((i + 1) + m'', k) :=
            (ih (i + 1) ((i + 1) + m'') k).2 ⟨m'', phm, hm'', hx, rfl, hh, hmax''⟩
          rw [hr] at hsome
          have hik : ik = ((i + 1) + m'', k) := by simpa using hsome
          subst hik
          have hgoal : (i + 1) + m'' = i0 := by omega
          simp only [Option.some_inj, Prod.mk.injEq]
          exact ⟨hgoal, trivial⟩
    | none =>
      have hnone := (last_seg_eq_none_iff sht rest (i + 1)).1 hr
      by_cases hx : ph.p_flags &&& PF_X ≠ 0
      · rw [if_pos hx]
        cases hh : last_hit (segment_end ph) 0 sht with
        | some k0 =>
          constructor
          · intro h
            have hik : (i, k0) = (i0, k) := by simpa using h
            have hi0 : i0 = i := by simp at hik; omega
            have hk0 : k0 = k := by simp at hik; omega
            subst hi0; subst hk0
            refine ⟨0, ph, by simp, hx, by omega, hh, ?_⟩
            intro m' ph' hlt hm' hx' n sh hn
            cases m' with
            | zero => omega
            | succ m'' => exact hnone m'' ph' (by simpa using hm') hx' n sh hn
          · rintro ⟨m, phm, hm, hxm, hi, hhm, hmax⟩
            cases m with
            | zero =>
              simp only [List.getElem?_cons_zero, Option.some_inj] at hm
              subst hm
              rw [hh] at hhm
              have : k0 = k := by simpa using hhm
              simp only [Option.some_inj, Prod.mk.injEq]
              omega
            | succ m'' =>
              exfalso
              rcases (last_hit_eq_some_iff (segment_end phm) sht 0 k).1 hhm with
                ⟨n, sh, hn, hhit, -, -⟩
              exact hnone m'' phm (by simpa using hm) hxm n sh hn hhit
        | none =>
          constructor
          · intro h; exact absurd h (by simp)
          · rintro ⟨m, phm, hm, hxm, hi, hhm, hmax⟩
            exfalso
            cases m with
            | zero =>
              simp only [List.getElem?_cons_zero, Option.some_inj] at hm
              subst hm
              rw [hh] at hhm
              exact absurd hhm (by simp)
            | succ m'' =>
              rcases (last_hit_eq_some_iff (segment_end phm) sht 0 k).1 hhm with
                ⟨n, sh, hn, hhit, -, -⟩
              exact hnone m'' phm (by simpa using hm) hxm n sh hn hhit
      · rw [if_neg hx]
        constructor
        · intro h; exact absurd h (by simp)
        · rintro ⟨m, phm, hm, hxm, hi, hhm, hmax⟩
          exfalso
          cases m with
          | zero =>
            simp only [List.getElem?_cons_zero, Option.some_inj] at hm
            subst hm
            exact hx hxm
          | succ m'' =>
            rcases (last_hit_eq_some_iff (segment_end phm) sht 0 k).1 hhm with
              ⟨n, sh, hn, hhit, -, -⟩
            exact hnone m'' phm (by simpa using hm) hxm n sh hn hhit

/-- C6 (amended): the Locator returns a descriptor exactly when some
executable program header entry has a section whose end computed in
`uint64` arithmetic (`(sh_addr + sh_size) mod 2^64`) equals the segment's
end truncated to 32 bits (the `uint32_t segment_end`); the returned
descriptor binds the section index of the pair processed last in scan
order (outer loop over program headers, inner loop over section headers)
with slack fixed at one page, and it returns `none` when no pair
qualifies. -/
theorem find_exe_seg_last_section_spec (ctx : drow_ctx) :
    (find_exe_seg_last_section ctx = none → ∀ i j : Nat, ¬ qual ctx i j) ∧
    (∀ s : shinfo, find_exe_seg_last_section ctx = some s →
        s.slackspace = pagesize ∧
        ∃ i : Nat, qual ctx i s.idx ∧
          ∀ i' j' : Nat, qual ctx i' j' → i' < i ∨ (i' = i ∧ j' ≤ s.idx)) := by
  have hfind : find_exe_seg_last_section ctx =
      match last_seg ctx.shtable 0 ctx.phtable with
      | some ik => some { idx := ik.2, slackspace := pagesize }
      | none => none :=
    scan_phdrs_eq_last_seg ctx.shtable ctx.phtable 0 none
  cases hr : last_seg ctx.shtable 0 ctx.phtable with
  | none =>
    rw [hr] at hfind
    constructor
    · intro _ i j hq
      rcases hq with ⟨ph, sh, hpi, hsj, hx, hhit⟩
      exact (last_seg_eq_none_iff ctx.shtable ctx.phtable 0).1 hr i ph hpi hx j sh hsj hhit
    · intro s hs
      rw [hfind] at hs
      exact absurd hs (by simp)
  | some ik =>
    rw [hr] at hfind
    constructor
    · intro hnone
      rw [hfind] at hnone
      exact absurd hnone (by simp)
    · intro s hs
      rw [hfind] at hs
      have hsval : s = { idx := ik.2, slackspace := pagesize } := by
        simpa using hs.symm
      subst hsval
      refine ⟨rfl, ?_⟩
      rcases (last_seg_eq_some_iff ctx.shtable ctx.phtable 0 ik.1 ik.2).1 (by rw [hr]) with
        ⟨m, ph, hm, hx, him, hh, hmaxseg⟩
      rcases (last_hit_eq_some_iff (segment_end ph) ctx.shtable 0 ik.2).1 hh with
        ⟨n, sh, hn, hhit, hkn, hmaxsec⟩
      refine ⟨m, ⟨ph, sh, hm, by simpa [hkn] using hn, hx, hhit⟩, ?_⟩
      intro i' j' hq'
      rcases hq' with ⟨ph', sh', hpi', hsj', hx', hhit'⟩
      by_cases hcmp : m < i'
      · exact absurd hhit' (hmaxseg i' ph' hcmp hpi' hx' j' sh' hsj')
      · by_cases heq : i' = m
        · subst heq
          have hphp : ph' = ph := Option.some_inj.1 (hpi'.symm.trans hm)
          subst hphp
          right
          refine ⟨rfl, ?_⟩
          show j' ≤ ik.2
          by_cases hj : n < j'
          · exact absurd hhit' (hmaxsec j' sh' hj hsj')
          · omega
        · left
          omega

/-- Witness for `find_exe_seg_last_section_spec` at `ctxA`, where the
locator returns the descriptor for section 0. -/
theorem find_exe_seg_last_section_spec_inst :
    sinfoA.slackspace = pagesize ∧
    ∃ i : Nat, qual ctxA i sinfoA.idx ∧
      ∀ i' j' : Nat, qual ctxA i' j' → i' < i ∨ (i' = i ∧ j' ≤ sinfoA.idx) :=
  (find_exe_seg_last_section_spec ctxA).2 sinfoA (by decide)

/-- C6 (counterexample to the claim as stated): in `ctxE` there is an
executable program header entry and a section whose 64-bit end equals the
segment's 64-bit end `p_vaddr + p_memsz = 2^32`, so the claim requires a
descriptor; but the code compares against the truncated `segment_end = 0`
and returns the not-found signal. -/
theorem find_exe_seg_last_section_misses_64bit_match :
    (∃ (i j : Nat) (ph : Elf64_Phdr) (sh : Elf64_Shdr),
        ctxE.phtable[i]? = some ph ∧ ctxE.shtable[j]? = some sh ∧
        ph.p_flags &&& PF_X ≠ 0 ∧ sh_end sh = ph.p_vaddr + ph.p_memsz) ∧
    find_exe_seg_last_section ctxE = none := by
  constructor
  · exact ⟨0, 0, { p_flags := 1, p_offset := 0, p_vaddr := 2 ^ 32, p_filesz := 0, p_memsz := 0 },
           { sh_name := 0, sh_addr := 2 ^ 32, sh_offset := 0, sh_size := 0 },
           by decide, by decide, by decide, by decide⟩
  · decide

/-- C10 (amended): the Locator computes each executable segment's end
modulo 2^32 — `segment_end` is the 32-bit truncation of `p_vaddr + p_memsz`
— and compares it with the section end computed in `uint64` arithmetic, so
a section is matched exactly when `(sh_addr + sh_size) mod 2^64` equals the
truncated segment end; for a segment whose true end is at least 2^32, a
section whose computed 64-bit end equals that true end never passes the
comparison (such a section can only be matched when its own sum wraps at
2^64). -/
theorem segment_end_truncation (ph : Elf64_Phdr) (sh : Elf64_Shdr) :
    segment_end ph = (ph.p_vaddr + ph.p_memsz) % U32 ∧
    (sh_end sh = segment_end ph ↔
      (sh.sh_addr + sh.sh_size) % U64 = (ph.p_vaddr + ph.p_memsz) % U32) ∧
    (2 ^ 32 ≤ ph.p_vaddr + ph.p_memsz → sh_end sh = ph.p_vaddr + ph.p_memsz →
      sh_end sh ≠ segment_end ph) := by
  refine ⟨rfl, Iff.rfl, ?_⟩
  intro hbig htrue
  have hlt : segment_end ph < 2 ^ 32 := by
    have : (ph.p_vaddr + ph.p_memsz) % U32 < U32 :=
      Nat.mod_lt _ (by norm_num [U32])
    simpa [segment_end, U32] using this
  omega

/-- C10 (counterexample to the claim as stated): in `ctxH` the executable
segment's true end `p_vaddr + p_memsz = 2^64` is at least `2^32`, and the
section's 64-bit end `sh_addr + sh_size = (2^64 - 1) + 1 = 2^64` equals
that true end — by the claim it is never matched; but in the code both
sums wrap to 0 (`uint64` and `uint32_t` respectively), the comparison at
elfio.c:262 succeeds, and the Locator returns a descriptor for the
section. -/
theorem segment_end_wraparound_match :
    2 ^ 32 ≤ (ctxH.phtable.getD 0 default).p_vaddr + (ctxH.phtable.getD 0 default).p_memsz ∧
    (ctxH.shtable.getD 0 default).sh_addr + (ctxH.shtable.getD 0 default).sh_size =
      (ctxH.phtable.getD 0 default).p_vaddr + (ctxH.phtable.getD 0 default).p_memsz ∧
    sh_end (ctxH.shtable.getD 0 default) = segment_end (ctxH.phtable.getD 0 default) ∧
    find_exe_seg_last_section ctxH = some { idx := 0, slackspace := pagesize } := by
  decide

/-- Witness for `segment_end_truncation` at the entries of `ctxE`: the
section ending at `2^32` is never matched against the segment whose true
end is `2^32`. -/
theorem segment_end_truncation_inst :
    sh_end ({ sh_name := 0, sh_addr := 2 ^ 32, sh_offset := 0, sh_size := 0 } : Elf64_Shdr) ≠
      segment_end ({ p_flags := 1, p_offset := 0, p_vaddr := 2 ^ 32, p_filesz := 0, p_memsz := 0 } : Elf64_Phdr) :=
  (segment_end_truncation _ _).2.2 (by decide) (by decide)

theorem sub64_mod_eq {a b : Nat} (hb : b ≤ a) (ha : a < U64) :
    (a + (U64 - b % U64)) % U64 = a - b := by
  simp only [U64] at *
  omega

theorem export_padsize_eq (pinfo : patchinfo) (payload : List Nat)
    (h : payload.length ≤ pinfo.size) (h2 : pinfo.size < U64) :
    export_padsize pinfo payload = pinfo.size - payload.length :=
  sub64_mod_eq h h2

theorem export_remaining_eq (ctx : drow_ctx) (pinfo : patchinfo)
    (h : pinfo.base ≤ ctx.size) (h2 : ctx.size < U64) :
    export_remaining ctx pinfo = ctx.size - pinfo.base :=
  sub64_mod_eq h h2

/-- C1 (amended): on an image the Locator actually accepts — which, because
of the truncated `segment_end` comparison, is the claim's structural
precondition with the end equality taken against the segment end mod 2^32
— whose patch base lies inside the image and whose byte buffer matches its
recorded size, running Locator, Relocator, then Exporter with a payload of
at most one page produces exactly `[0, base)` of the relocated image, then
the payload, then `pagesize - payload.length` zero bytes, then
`[base, size)` of the relocated image — and the output's length is the
input length plus one page. -/
theorem drow_pipeline_spec (ctx : drow_ctx) (payload : List Nat) (sinfo : shinfo)
    (hloc : find_exe_seg_last_section ctx = some sinfo)
    (hdata : ctx.data.length = ctx.size)
    (hsz : ctx.size < U64)
    (hbase : (expand_section ctx sinfo).2.base ≤ ctx.size)
    (hpay : payload.length ≤ pagesize) :
    drow_pipeline ctx payload = some (
      ((expand_section ctx sinfo).1.data.take (expand_section ctx sinfo).2.base)
        ++ payload ++ List.replicate (pagesize - payload.length) 0
        ++ ((expand_section ctx sinfo).1.data.drop (expand_section ctx sinfo).2.base)) ∧
    ∀ out : List Nat, drow_pipeline ctx payload = some out →
      out.length = ctx.size + pagesize := by
  have hdata1 : (expand_section ctx sinfo).1.data = ctx.data := rfl
  have hsize1 : (expand_section ctx sinfo).1.size = ctx.size := rfl
  have hpsize : (expand_section ctx sinfo).2.size = pagesize := rfl
  have hpad : export_padsize (expand_section ctx sinfo).2 payload
      = pagesize - payload.length := by
    rw [export_padsize_eq _ _ (by rw [hpsize]; exact hpay)
      (by rw [hpsize]; simp only [pagesize, U64]; norm_num), hpsize]
  have hrem : export_remaining (expand_section ctx sinfo).1 (expand_section ctx sinfo).2
      = ctx.size - (expand_section ctx sinfo).2.base := by
    rw [export_remaining_eq _ _ (by rw [hsize1]; exact hbase) (by rw [hsize1]; exact hsz), hsize1]
  have htail : ((expand_section ctx sinfo).1.data.drop (expand_section ctx sinfo).2.base).take
      (ctx.size - (expand_section ctx sinfo).2.base)
      = (expand_section ctx sinfo).1.data.drop (expand_section ctx sinfo).2.base := by
    apply List.take_of_length_le
    rw [List.length_drop, hdata1, hdata]
  have hexp : export_elf_file (expand_section ctx sinfo).1 payload (expand_section ctx sinfo).2
      = ((expand_section ctx sinfo).1.data.take (expand_section ctx sinfo).2.base)
        ++ payload ++ List.replicate (pagesize - payload.length) 0
        ++ ((expand_section ctx sinfo).1.data.drop (expand_section ctx sinfo).2.base) := by
    rw [export_elf_file, hpad, hrem, htail]
  have hout : drow_pipeline ctx payload =
      some (export_elf_file (expand_section ctx sinfo).1 payload (expand_section ctx sinfo).2) := by
    rw [drow_pipeline, hloc]
  have hlen : (((expand_section ctx sinfo).1.data.take (expand_section ctx sinfo).2.base)
        ++ payload ++ List.replicate (pagesize - payload.length) 0
        ++ ((expand_section ctx sinfo).1.data.drop (expand_section ctx sinfo).2.base)).length
      = ctx.size + pagesize := by
    simp only [List.length_append, List.length_take, List.length_replicate,
      List.length_drop, hdata1, hdata]
    omega
  refine ⟨by rw [hout, hexp], ?_⟩
  intro out hout2
  rw [hout, hexp] at hout2
  have : out = ((expand_section ctx sinfo).1.data.take (expand_section ctx sinfo).2.base)
        ++ payload ++ List.replicate (pagesize - payload.length) 0
        ++ ((expand_section ctx sinfo).1.data.drop (expand_section ctx sinfo).2.base) := by
    simpa using hout2.symm
  rw [this, hlen]

/-- Witness for `drow_pipeline_spec` at `ctxA` with the three-byte payload
`payloadA`. -/
theorem drow_pipeline_spec_inst :
    drow_pipeline ctxA payloadA = some (
      ((expand_section ctxA sinfoA).1.data.take (expand_section ctxA sinfoA).2.base)
        ++ payloadA ++ List.replicate (pagesize - payloadA.length) 0
        ++ ((expand_section ctxA sinfoA).1.data.drop (expand_section ctxA sinfoA).2.base)) ∧
    ∀ out : List Nat, drow_pipeline ctxA payloadA = some out →
      out.length = ctxA.size + pagesize :=
  drow_pipeline_spec ctxA payloadA sinfoA (by decide) (by decide) (by decide)
    (by decide) (by decide)

/-- C1 (counterexample to the claim as stated): `ctxE` satisfies the
claim's structural precondition — it has exactly one program header entry,
flagged executable, and exactly one section, and the section's end
`sh_addr + sh_size = 2^32` coincides with the segment's end
`p_vaddr + p_memsz = 2^32` — and the payload is within one page; yet the
pipeline produces no output at all (the Locator compares against the
truncated `segment_end = 0` and fails), so no output of length
`input + page` exists. -/
theorem drow_pipeline_misses_matching_image :
    (∃ (i j : Nat) (ph : Elf64_Phdr) (sh : Elf64_Shdr),
        ctxE.phtable[i]? = some ph ∧ ctxE.shtable[j]? = some sh ∧
        ph.p_flags &&& PF_X ≠ 0 ∧ sh.sh_addr + sh.sh_size = ph.p_vaddr + ph.p_memsz) ∧
    ctxE.phtable.length = 1 ∧ ctxE.shtable.length = 1 ∧
    payloadA.length ≤ pagesize ∧
    drow_pipeline ctxE payloadA = none := by
  refine ⟨⟨0, 0, { p_flags := 1, p_offset := 0, p_vaddr := 2 ^ 32, p_filesz := 0, p_memsz := 0 },
           { sh_name := 0, sh_addr := 2 ^ 32, sh_offset := 0, sh_size := 0 },
           by decide, by decide, by decide, by decide⟩, by decide, by decide, by decide, by decide⟩

/-- C7 (code bug): with a payload one byte larger than the reserved page,
the Exporter does not fail before writing — the pipeline still runs, the
pad subtraction `pinfo->size - payload->size` is reached and underflows to
`2^64 - 1`, and the destination file already holds the `base`-byte image
prefix followed by the whole payload before any failure can occur.  The
claim (and the spec) require rejection before the subtraction, with no
bytes written. -/
theorem export_oversized_payload_written :
    pagesize < payloadC7.length ∧
    drow_pipeline ctxA payloadC7 =
      some (export_elf_file (expand_section ctxA sinfoA).1 payloadC7
        (expand_section ctxA sinfoA).2) ∧
    export_padsize (expand_section ctxA sinfoA).2 payloadC7 = U64 - 1 ∧
    (export_elf_file (expand_section ctxA sinfoA).1 payloadC7
        (expand_section ctxA sinfoA).2).take
        ((expand_section ctxA sinfoA).2.base + payloadC7.length)
      = (expand_section ctxA sinfoA).1.data.take (expand_section ctxA sinfoA).2.base
        ++ payloadC7 := by
  have hplen : payloadC7.length = 4097 := by
    rw [payloadC7, List.length_replicate]
  refine ⟨by rw [hplen]; decide, rfl, ?_, ?_⟩
  · rw [export_padsize, hplen]
    decide
  · have hgrp : export_elf_file (expand_section ctxA sinfoA).1 payloadC7
        (expand_section ctxA sinfoA).2
        = ((expand_section ctxA sinfoA).1.data.take (expand_section ctxA sinfoA).2.base
            ++ payloadC7)
          ++ (List.replicate (export_padsize (expand_section ctxA sinfoA).2 payloadC7) 0
            ++ ((expand_section ctxA sinfoA).1.data.drop (expand_section ctxA sinfoA).2.base).take
                (export_remaining (expand_section ctxA sinfoA).1 (expand_section ctxA sinfoA).2)) := by
      rw [export_elf_file]
      simp [List.append_assoc]
    have hb : (expand_section ctxA sinfoA).2.base = 12 := by decide
    have hlenA : ((expand_section ctxA sinfoA).1.data.take
        (expand_section ctxA sinfoA).2.base).length = 12 := by decide
    have hlenAB : ((expand_section ctxA sinfoA).1.data.take (expand_section ctxA sinfoA).2.base
        ++ payloadC7).length
        = (expand_section ctxA sinfoA).2.base + payloadC7.length := by
      rw [List.length_append, hlenA, hb]
    rw [hgrp, ← hlenAB, List.take_left]
